import Mathlib

/-!
Shallow embedding of the JACK audio output driver core (`src/audio/out/ao_jack.c`):
ring buffer, deinterleaver, silence filler, real-time callback, pause/flush control
and latency estimation.  Machine floats carrying time values are idealised as exact
rationals; audio samples are kept as their raw bytes (4 bytes each, `sizeof(float)`),
so the zero-amplitude IEEE-754 sample is four zero bytes.
-/

/-- Value of `sizeof(float)` in the C source: each audio sample occupies 4 bytes. -/
def floatSize : Nat := 4

/-- A byte of raw sample data. -/
abbrev Byte := Nat

/-- One float sample, kept as its 4 raw bytes; zero amplitude is four zero bytes. -/
abbrev Sample := List Byte

/-- The zero-amplitude sample (`memset(..., 0, ...)` over `sizeof(float)` bytes). -/
def zeroSample : Sample := List.replicate floatSize 0

/-- Per-channel output planes handed to the callback: plane index → position → sample. -/
abbrev Planes := Nat → Nat → Sample

/-- Modelled from the spec: the libavutil `AVFifoBuffer` is only declared through
`libavutil/fifo.h` in the source tree; §4.1 describes it as a fixed-capacity byte
FIFO.  We keep its occupied bytes as a list, oldest byte first, with the capacity
passed alongside where an operation needs it. -/
abbrev Fifo := List Byte

/-- Modelled from the spec: `av_fifo_size`, the occupied byte count (§4.1 `occupied()`). -/
def av_fifo_size (buf : Fifo) : Nat := buf.length

/-- Modelled from the spec: `av_fifo_space`, the free bytes left (§4.1 `available_space()`). -/
def av_fifo_space (cap : Nat) (buf : Fifo) : Nat := cap - buf.length

/-- Modelled from the spec: `av_fifo_generic_write` appends `len` bytes of `data`
(the caller `write_buffer` has already truncated `len` to the free space) and
returns the byte count written. -/
def av_fifo_generic_write (buf : Fifo) (data : List Byte) (len : Nat) : Fifo × Nat :=
  (buf ++ data.take len, len)

/-- Modelled from the spec: `av_fifo_generic_read` pops the oldest `len` bytes and
hands them to the read callback (§4.1 `pop`); first component is the popped run,
second the remaining buffer. -/
def av_fifo_generic_read (buf : Fifo) (len : Nat) : List Byte × Fifo :=
  (buf.take len, buf.drop len)

/-- Modelled from the spec: `av_fifo_reset` discards all buffered content (§4.1 `reset()`). -/
def av_fifo_reset (buf : Fifo) : Fifo :=
  match buf with
  | _ => []

/-- Embeds `write_buffer` (ao_jack.c:71): insert `len` bytes into the buffer; if there is
not enough room, the buffer is only filled up.  Returns the new buffer contents
and the number of bytes inserted. -/
def write_buffer (cap : Nat) (buffer : Fifo) (data : List Byte) (len : Nat) :
    Fifo × Nat :=
  let free := av_fifo_space cap buffer
  let len := if len > free then free else len
  av_fifo_generic_write buffer data len

/-- The C `struct deinterleave` (ao_jack.c:81). -/
structure Deinterleave where
  bufs : Planes
  num_bufs : Nat
  cur_buf : Nat
  pos : Nat

/-- Write sample `v` to plane `i` at position `p`, leaving every other slot alone. -/
def writePlane (bufs : Planes) (i p : Nat) (v : Sample) : Planes :=
  fun j q => if j = i ∧ q = p then v else bufs j q

/-- One iteration of the `deinterleave` loop body (ao_jack.c:94-99): store the
sample at the current plane/position cursor, then advance the cursor round-robin. -/
def deinterleaveStep (di : Deinterleave) (s : Sample) : Deinterleave :=
  let bufs := writePlane di.bufs di.cur_buf di.pos s
  if di.cur_buf + 1 ≥ di.num_bufs then
    ⟨bufs, di.num_bufs, 0, di.pos + 1⟩
  else
    ⟨bufs, di.num_bufs, di.cur_buf + 1, di.pos⟩

/-- Embeds `len /= sizeof(float)` together with the indexing `s[i]` (ao_jack.c:93-95):
cut the raw byte run into consecutive 4-byte float samples, ignoring a trailing
partial sample. -/
def bytesToSamples : List Byte → List Sample
  | b0 :: b1 :: b2 :: b3 :: rest => [b0, b1, b2, b3] :: bytesToSamples rest
  | _ => []

/-- The `deinterleave` loop folded over the samples of a read run. -/
def deinterleaveSamples (di : Deinterleave) (samples : List Sample) : Deinterleave :=
  samples.foldl deinterleaveStep di

/-- Embeds `deinterleave` (ao_jack.c:88): distribute an interleaved raw byte run
round-robin over the destination planes. -/
def deinterleave (di : Deinterleave) (src : List Byte) : Deinterleave :=
  deinterleaveSamples di (bytesToSamples src)

/-- Embeds `silence` (ao_jack.c:139): fill the first `cnt` positions of the first
`num_bufs` planes with zero samples. -/
def silence (bufs : Planes) (cnt num_bufs : Nat) : Planes :=
  fun i p => if i < num_bufs ∧ p < cnt then zeroSample else bufs i p

/-- Result of `read_buffer`: the updated planes, the remaining ring-buffer
contents, and the returned per-channel sample count. -/
structure ReadResult where
  bufs : Planes
  buffer : Fifo
  ret : Nat

/-- Embeds `read_buffer` (ao_jack.c:116): read data from the buffer, splitting it into
channels; on a shortfall, pre-fill the planes with silence and truncate the frame
count to what the buffer holds. -/
def read_buffer (buffer : Fifo) (bufs : Planes) (cnt num_bufs : Nat) : ReadResult :=
  let buffered := av_fifo_size buffer
  let short := cnt * floatSize * num_bufs > buffered
  let bufs1 := if short then silence bufs cnt num_bufs else bufs
  let cnt1 := if short then buffered / floatSize / num_bufs else cnt
  let nbytes := cnt1 * num_bufs * floatSize
  let rd := av_fifo_generic_read buffer nbytes
  let di := deinterleave ⟨bufs1, num_bufs, 0, 0⟩ rd.1
  ⟨di.bufs, rd.2, cnt1⟩

/-- The driver state the core claims are about: the `paused` and `underrun` flags,
the ring buffer (`none` when closed/uninitialized), and the latency-estimator
fields `callback_time` and `callback_interval` (seconds, idealised as rationals). -/
structure AoState where
  paused : Bool
  underrun : Bool
  buffer : Option Fifo
  callback_time : ℚ
  callback_interval : ℚ

/-- Embeds `outputaudio` (ao_jack.c:154): the JACK process callback.  Writes silence when
paused, underrun-flagged or the buffer is absent, otherwise pops and deinterleaves
from the ring buffer (flagging an underrun on a shortfall); finally updates the
cadence estimate when `estimate` is set.  Returns the new state and planes. -/
def outputaudio (num_ports samplerate : Nat) (estimate : Bool) (st : AoState)
    (bufs : Planes) (nframes : Nat) (now : ℚ) : AoState × Planes :=
  let stage1 : AoState × Planes :=
    if st.paused || st.underrun || st.buffer.isNone then
      (st, silence bufs nframes num_ports)
    else
      let r := read_buffer (st.buffer.getD []) bufs nframes num_ports
      ({ st with buffer := some r.buffer,
                 underrun := if r.ret < nframes then true else st.underrun }, r.bufs)
  let st1 := stage1.1
  let st2 :=
    if estimate then
      let diff := st1.callback_time + st1.callback_interval - now
      { st1 with
        callback_time :=
          if -(2/1000 : ℚ) < diff ∧ diff < (2/1000 : ℚ) then
            st1.callback_time + st1.callback_interval
          else now,
        callback_interval := (nframes : ℚ) / (samplerate : ℚ) }
    else st1
  (st2, stage1.2)

/-- Embeds `get_delay` (ao_jack.c:317): seconds of audio still queued in software plus the
in-server latency estimate; the whole in-server term is clamped at zero. -/
def get_delay (bps : Nat) (jack_latency : ℚ) (estimate : Bool) (st : AoState)
    (now : ℚ) : ℚ :=
  let buffered := av_fifo_size (st.buffer.getD [])
  let in_jack := jack_latency
  let in_jack :=
    if estimate = true ∧ 0 < st.callback_interval then
      let elapsed := now - st.callback_time
      let ij := in_jack + (st.callback_interval - elapsed)
      if ij < 0 then 0 else ij
    else in_jack
  (buffered : ℚ) / (bps : ℚ) + in_jack

/-- Modelled from the spec: the delay formula exactly as the specification words
it — `occupied_bytes / bytes_per_second + hardware_base_latency +
max(0, nominal_period - (now - last_predicted_fire_time))`, the last term dropped
when estimation is disabled.  Stated only for comparison with `get_delay`. -/
def get_delay_claimed (bps : Nat) (jack_latency : ℚ) (estimate : Bool)
    (st : AoState) (now : ℚ) : ℚ :=
  ((av_fifo_size (st.buffer.getD [])) : ℚ) / (bps : ℚ) + jack_latency +
    (if estimate = true then
       max 0 (st.callback_interval - (now - st.callback_time))
     else 0)

/-- Embeds `play` (ao_jack.c:377): trim `len` to a multiple of the outburst unless this is
the final chunk, clear the underrun flag unconditionally, then push into the ring
buffer; returns the bytes accepted. -/
def play (outburst cap : Nat) (st : AoState) (data : List Byte) (len : Nat)
    (finalChunk : Bool) : AoState × Nat :=
  let len := if finalChunk then len else len - len % outburst
  let w := write_buffer cap (st.buffer.getD []) data len
  ({ st with underrun := false, buffer := some w.1 }, w.2)

/-- Embeds `reset` (ao_jack.c:333): set `paused`, clear the ring buffer, clear `paused`. -/
def reset (st : AoState) : AoState :=
  let st1 := { st with paused := true }
  let st2 := { st1 with buffer := st1.buffer.map av_fifo_reset }
  { st2 with paused := false }

/-- Embeds `audio_pause` (ao_jack.c:356): stop playing, keep buffers. -/
def audio_pause (st : AoState) : AoState := { st with paused := true }

/-- Embeds `audio_resume` (ao_jack.c:364): resume playing after `audio_pause`. -/
def audio_resume (st : AoState) : AoState := { st with paused := false }

/-- Embeds `get_space` (ao_jack.c:369): free bytes in the ring buffer. -/
def get_space (cap : Nat) (st : AoState) : Nat := av_fifo_space cap (st.buffer.getD [])

/-- The operation alphabet of the driver for the temporal underrun claim: the real-time
callback, the producer write, and the control/query entry points. -/
inductive Op where
  | callback (bufs : Planes) (nframes : Nat) (now : ℚ)
  | play (data : List Byte) (len : Nat) (finalChunk : Bool)
  | reset
  | pause
  | resume
  | querySpace
  | queryDelay (now : ℚ)

/-- State transition performed by each operation (the queries `get_space` and
`get_delay` leave the state unchanged). -/
def step (num_ports samplerate outburst cap : Nat) (estimate : Bool)
    (st : AoState) : Op → AoState
  | .callback bufs n now => (outputaudio num_ports samplerate estimate st bufs n now).1
  | .play data len f => (play outburst cap st data len f).1
  | .reset => reset st
  | .pause => audio_pause st
  | .resume => audio_resume st
  | .querySpace => st
  | .queryDelay _ => st

/-! ## Helper lemmas about the ring buffer and the deinterleaver -/

lemma write_buffer_eq (cap : Nat) (buf : Fifo) (data : List Byte) (len : Nat) :
    write_buffer cap buf data len =
      (buf ++ data.take (min len (cap - buf.length)), min len (cap - buf.length)) := by
  simp only [write_buffer, av_fifo_space, av_fifo_generic_write]
  by_cases h : len > cap - buf.length
  · rw [if_pos h]
    have hmin : min len (cap - buf.length) = cap - buf.length := by omega
    rw [hmin]
  · rw [if_neg h]
    have hmin : min len (cap - buf.length) = len := by omega
    rw [hmin]

lemma bytesToSamples_length : ∀ l : List Byte, (bytesToSamples l).length = l.length / 4
  | b0 :: b1 :: b2 :: b3 :: rest => by
      simp only [bytesToSamples, List.length_cons, bytesToSamples_length rest]
      omega
  | [] => by simp [bytesToSamples]
  | [a] => by simp [bytesToSamples]
  | [a, b] => by simp [bytesToSamples]
  | [a, b, c] => by simp [bytesToSamples]

lemma bytesToSamples_flatten : ∀ l : List Byte, 4 ∣ l.length →
    (bytesToSamples l).flatten = l
  | b0 :: b1 :: b2 :: b3 :: rest => fun h => by
      have hr : 4 ∣ rest.length := by simp at h; omega
      simp [bytesToSamples, bytesToSamples_flatten rest hr]
  | [] => fun _ => by simp [bytesToSamples]
  | [a] => fun h => by simp at h
  | [a, b] => fun h => by simp only [List.length_cons, List.length_nil] at h; omega
  | [a, b, c] => fun h => by simp only [List.length_cons, List.length_nil] at h; omega

lemma map_getD_range (d : Sample) : ∀ l : List Sample,
    (List.range l.length).map (fun k => l.getD k d) = l
  | [] => by simp
  | a :: t => by
      rw [List.length_cons, List.range_succ_eq_map, List.map_cons, List.map_map]
      simp only [List.getD_cons_zero, Function.comp_def, List.getD_cons_succ]
      rw [map_getD_range d t]

lemma flat_inj {N q j p c : Nat} (hj : j < N) (hc : c < N)
    (h : q * N + j = p * N + c) : q = p ∧ j = c := by
  have hmod : ∀ x y : Nat, y < N → (x * N + y) % N = y := by
    intro x y hy
    rw [Nat.add_comm, Nat.add_mul_mod_self_right, Nat.mod_eq_of_lt hy]
  have hdiv : ∀ x y : Nat, y < N → (x * N + y) / N = x := by
    intro x y hy
    rw [Nat.add_comm, Nat.add_mul_div_right _ _ (by omega : 0 < N),
        Nat.div_eq_of_lt hy, Nat.zero_add]
  constructor
  · have h1 := hdiv q j hj
    rw [h, hdiv p c hc] at h1
    exact h1.symm
  · have h1 := hmod q j hj
    rw [h, hmod p c hc] at h1
    exact h1.symm

lemma deinterleaveStep_char (bufs : Planes) (N c p : Nat) (s : Sample)
    (hN : 0 < N) (hc : c < N) :
    ∃ c' p', deinterleaveStep ⟨bufs, N, c, p⟩ s = ⟨writePlane bufs c p s, N, c', p'⟩ ∧
      c' < N ∧ p' * N + c' = p * N + c + 1 := by
  by_cases h : c + 1 ≥ N
  · refine ⟨0, p + 1, ?_, hN, ?_⟩
    · simp [deinterleaveStep, h]
    · have hcN : c + 1 = N := by omega
      calc (p + 1) * N + 0 = p * N + N := by ring
        _ = p * N + (c + 1) := by rw [hcN]
        _ = p * N + c + 1 := by ring
  · refine ⟨c + 1, p, ?_, by omega, by ring⟩
    simp [deinterleaveStep, h]

lemma deinterleaveSamples_bufs :
    ∀ (samples : List Sample) (N : Nat) (bufs : Planes) (c p : Nat),
      0 < N → c < N → ∀ j q,
      (deinterleaveSamples ⟨bufs, N, c, p⟩ samples).bufs j q =
        if j < N ∧ p * N + c ≤ q * N + j ∧ q * N + j < p * N + c + samples.length
        then samples.getD (q * N + j - (p * N + c)) zeroSample
        else bufs j q
  | [], N, bufs, c, p, _, _, j, q => by
      simp only [deinterleaveSamples, List.foldl_nil, List.length_nil, Nat.add_zero]
      rw [if_neg]
      rintro ⟨-, h1, h2⟩
      omega
  | s :: ss, N, bufs, c, p, hN, hc, j, q => by
      obtain ⟨c', p', hstep, hc', hflat⟩ := deinterleaveStep_char bufs N c p s hN hc
      have hrec : deinterleaveSamples ⟨bufs, N, c, p⟩ (s :: ss) =
          deinterleaveSamples (deinterleaveStep ⟨bufs, N, c, p⟩ s) ss := rfl
      rw [hrec, hstep, deinterleaveSamples_bufs ss N _ c' p' hN hc' j q, hflat,
          List.length_cons]
      by_cases hjN : j < N
      · by_cases hv : q * N + j = p * N + c
        · obtain ⟨hq, hj⟩ := flat_inj hjN hc hv
          rw [if_neg (by omega), if_pos ⟨hjN, by omega, by omega⟩, hv, Nat.sub_self,
              List.getD_cons_zero]
          simp [writePlane, hj, hq]
        · by_cases hrange : p * N + c + 1 ≤ q * N + j ∧ q * N + j < p * N + c + 1 + ss.length
          · rw [if_pos ⟨hjN, hrange.1, hrange.2⟩, if_pos ⟨hjN, by omega, by omega⟩]
            have hvF : q * N + j - (p * N + c) = (q * N + j - (p * N + c + 1)) + 1 := by
              omega
            rw [hvF, List.getD_cons_succ]
          · rw [if_neg (by omega), if_neg (by omega)]
            have hne : ¬ (j = c ∧ q = p) := by
              rintro ⟨rfl, rfl⟩
              exact hv rfl
            simp [writePlane, hne]
      · rw [if_neg (fun h => hjN h.1), if_neg (fun h => hjN h.1)]
        have hne : ¬ (j = c ∧ q = p) := by
          rintro ⟨rfl, -⟩
          exact hjN hc
        simp [writePlane, hne]

lemma deinterleave_bufs_getD (N : Nat) (hN : 0 < N) (src : List Byte) (bufs : Planes)
    (k : Nat) (hk : k < (bytesToSamples src).length) :
    (deinterleave ⟨bufs, N, 0, 0⟩ src).bufs (k % N) (k / N) =
      (bytesToSamples src).getD k zeroSample := by
  rw [deinterleave, deinterleaveSamples_bufs _ N bufs 0 0 hN hN]
  have hmod : k % N < N := Nat.mod_lt _ hN
  have hdm : k / N * N + k % N = k := by
    rw [Nat.mul_comm]
    exact Nat.div_add_mod k N
  rw [if_pos ⟨hmod, by omega, by omega⟩]
  congr 1
  omega

lemma deinterleave_bufs_untouched (N : Nat) (hN : 0 < N) (src : List Byte)
    (bufs : Planes) (j q : Nat)
    (h : ¬ ∃ k, k < (bytesToSamples src).length ∧ j = k % N ∧ q = k / N) :
    (deinterleave ⟨bufs, N, 0, 0⟩ src).bufs j q = bufs j q := by
  rw [deinterleave, deinterleaveSamples_bufs _ N bufs 0 0 hN hN]
  rw [if_neg]
  rintro ⟨hjN, -, hlt⟩
  refine h ⟨q * N + j, by omega, ?_, ?_⟩
  · rw [Nat.add_comm, Nat.add_mul_mod_self_right, Nat.mod_eq_of_lt hjN]
  · rw [Nat.add_comm, Nat.add_mul_div_right _ _ (by omega : 0 < N),
        Nat.div_eq_of_lt hjN, Nat.zero_add]

/-! ## Claim theorems -/

/-- C4: for every push (`write_buffer`) of `len` bytes, exactly
`min(len, available_space())` bytes are appended to the buffer and that count is
returned, without blocking and without overflowing capacity. -/
theorem write_buffer_truncates (cap : Nat) (buf data : List Byte) (len : Nat)
    (hocc : buf.length ≤ cap) (hdata : len ≤ data.length) :
    (write_buffer cap buf data len).2 = min len (av_fifo_space cap buf) ∧
    (write_buffer cap buf data len).1 = buf ++ data.take (min len (av_fifo_space cap buf)) ∧
    av_fifo_size (write_buffer cap buf data len).1 =
      av_fifo_size buf + min len (av_fifo_space cap buf) ∧
    av_fifo_size (write_buffer cap buf data len).1 ≤ cap := by
  rw [write_buffer_eq]
  refine ⟨by simp [av_fifo_space], by simp [av_fifo_space], ?_, ?_⟩
  · simp only [av_fifo_size, av_fifo_space, List.length_append, List.length_take]
    omega
  · simp only [av_fifo_size, av_fifo_space, List.length_append, List.length_take]
    omega

/-- C4 witness: the concrete scenario of the claim — pushing 10000 bytes into an
empty 8192-byte buffer returns 8192 and leaves occupancy 8192. -/
theorem write_buffer_truncates_witness :
    (write_buffer 8192 [] (List.replicate 10000 0) 10000).2 = 8192 ∧
    av_fifo_size (write_buffer 8192 [] (List.replicate 10000 0) 10000).1 = 8192 := by
  have h := write_buffer_truncates 8192 [] (List.replicate 10000 0) 10000
    (Nat.zero_le 8192) (by rw [List.length_replicate])
  refine ⟨?_, ?_⟩
  · rw [h.1]
    simp only [av_fifo_space, List.length_nil]
    omega
  · rw [h.2.2.1]
    simp only [av_fifo_space, av_fifo_size, List.length_nil]
    omega

/-- C5 counterexample: the claim says the `Paused` flag returns to its pre-reset
value; but `reset` on a paused state with non-empty buffer leaves `paused = false`. -/
theorem reset_paused_counterexample :
    ¬ ((reset ⟨true, false, some [1, 2, 3, 4], 0, 0⟩).paused =
        (AoState.mk true false (some [1, 2, 3, 4]) 0 0).paused) := by
  simp [reset]

/-- C5 (amended): after `reset` on a state with non-empty buffer, occupancy is 0
and `paused` is `false` (cleared unconditionally, not restored), the reset having
proceeded as: set `paused`, clear the ring buffer, clear `paused`. -/
theorem reset_clears (st : AoState) (b : Fifo) (hb : st.buffer = some b)
    (_hocc : 0 < av_fifo_size b) :
    (reset st).buffer = some [] ∧ av_fifo_size ((reset st).buffer.getD []) = 0 ∧
    (reset st).paused = false := by
  simp [reset, hb, av_fifo_reset, av_fifo_size]

/-- C5 witness: `reset` at a concrete non-paused state with four buffered bytes. -/
theorem reset_clears_witness :
    (reset ⟨false, false, some [9, 9, 9, 9], 0, 0⟩).buffer = some [] ∧
    av_fifo_size ((reset ⟨false, false, some [9, 9, 9, 9], 0, 0⟩).buffer.getD []) = 0 ∧
    (reset ⟨false, false, some [9, 9, 9, 9], 0, 0⟩).paused = false :=
  reset_clears ⟨false, false, some [9, 9, 9, 9], 0, 0⟩ [9, 9, 9, 9] rfl (by decide)

/-- C6 counterexample: `get_delay` does not match the claimed formula
`occupied/bps + base_latency + max(0, period - elapsed)` — the code clamps the
base latency together with the period term, so at this input the code returns 0
while the claimed formula returns 1. -/
theorem get_delay_counterexample :
    get_delay 4 1 true ⟨false, false, some [], 0, 1⟩ 10 ≠
      get_delay_claimed 4 1 true ⟨false, false, some [], 0, 1⟩ 10 := by
  norm_num [get_delay, get_delay_claimed, av_fifo_size]

/-- C6 (amended): when estimation is enabled and the tracked callback period is
positive, `get_delay` returns `occupied/bps + max(0, base_latency + period -
elapsed)` — the clamp covers the base latency too; otherwise (estimation disabled,
or no callback observed yet, period = 0) it returns `occupied/bps + base_latency`. -/
theorem get_delay_formula (bps : Nat) (lat : ℚ) (est : Bool) (st : AoState)
    (now : ℚ) :
    get_delay bps lat est st now =
      if est = true ∧ 0 < st.callback_interval then
        ((av_fifo_size (st.buffer.getD [])) : ℚ) / (bps : ℚ) +
          max 0 (lat + (st.callback_interval - (now - st.callback_time)))
      else ((av_fifo_size (st.buffer.getD [])) : ℚ) / (bps : ℚ) + lat := by
  by_cases h : est = true ∧ 0 < st.callback_interval
  · simp only [get_delay, if_pos h]
    congr 1
    rcases le_or_lt 0 (lat + (st.callback_interval - (now - st.callback_time))) with hle | hlt
    · rw [if_neg (not_lt.mpr hle), max_eq_right hle]
    · rw [if_pos hlt, max_eq_left (le_of_lt hlt)]
  · simp only [get_delay, if_neg h]

/-- C7: deinterleaving a flat interleaved source of `L` float samples into `N`
planes writes source sample `k` to plane `k mod N` at position `k / N` for every
`k < L`, and writes no other plane position. -/
theorem deinterleave_mapping (N : Nat) (hN : 0 < N) (src : List Byte) (bufs : Planes) :
    (∀ k, k < (bytesToSamples src).length →
      (deinterleave ⟨bufs, N, 0, 0⟩ src).bufs (k % N) (k / N) =
        (bytesToSamples src).getD k zeroSample) ∧
    (∀ j q, (¬ ∃ k, k < (bytesToSamples src).length ∧ j = k % N ∧ q = k / N) →
      (deinterleave ⟨bufs, N, 0, 0⟩ src).bufs j q = bufs j q) :=
  ⟨fun k hk => deinterleave_bufs_getD N hN src bufs k hk,
   fun j q h => deinterleave_bufs_untouched N hN src bufs j q h⟩

/-- C7 witness: two planes, eight source bytes (two samples); sample 1 lands on
plane 1 at position 0, and the untouched slot `(5, 7)` keeps its old value. -/
theorem deinterleave_mapping_witness :
    (deinterleave ⟨fun _ _ => ([] : List Byte), 2, 0, 0⟩
        [1, 2, 3, 4, 5, 6, 7, 8]).bufs (1 % 2) (1 / 2) =
      (bytesToSamples [1, 2, 3, 4, 5, 6, 7, 8]).getD 1 zeroSample ∧
    (deinterleave ⟨fun _ _ => ([] : List Byte), 2, 0, 0⟩
        [1, 2, 3, 4, 5, 6, 7, 8]).bufs 5 7 = [] :=
  ⟨(deinterleave_mapping 2 (by decide) [1, 2, 3, 4, 5, 6, 7, 8] _).1 1 (by decide),
   (deinterleave_mapping 2 (by decide) [1, 2, 3, 4, 5, 6, 7, 8] _).2 5 7
     (by rintro ⟨k, hk, h5, h7⟩; omega)⟩

/-- C1: on a callback invocation with `paused` set, or `underrun` set, or no ring
buffer (closed/uninitialized), all `num_ports` planes are filled with zero samples
for all `nframes` positions and the ring buffer is left untouched. -/
theorem outputaudio_silence (np sr : Nat) (est : Bool) (st : AoState) (bufs : Planes)
    (n : Nat) (now : ℚ)
    (h : st.paused = true ∨ st.underrun = true ∨ st.buffer = none) :
    (∀ i p, i < np → p < n → (outputaudio np sr est st bufs n now).2 i p = zeroSample) ∧
    (outputaudio np sr est st bufs n now).1.buffer = st.buffer := by
  have hcond : (st.paused || st.underrun || st.buffer.isNone) = true := by
    rcases h with h | h | h <;> simp [h]
  constructor
  · intro i p hi hp
    cases est <;> simp [outputaudio, hcond, silence, hi, hp]
  · cases est <;> simp [outputaudio, hcond]

/-- C1 witness: a paused state with four buffered bytes — plane 0 position 0 is
silent and the buffer is untouched. -/
theorem outputaudio_silence_witness :
    (outputaudio 1 44100 true ⟨true, false, some [1, 2, 3, 4], 0, 0⟩
        (fun _ _ => [7]) 2 0).2 0 0 = zeroSample ∧
    (outputaudio 1 44100 true ⟨true, false, some [1, 2, 3, 4], 0, 0⟩
        (fun _ _ => [7]) 2 0).1.buffer = some [1, 2, 3, 4] :=
  ⟨(outputaudio_silence 1 44100 true ⟨true, false, some [1, 2, 3, 4], 0, 0⟩
      (fun _ _ => [7]) 2 0 (Or.inl rfl)).1 0 0 (by decide) (by decide),
   (outputaudio_silence 1 44100 true ⟨true, false, some [1, 2, 3, 4], 0, 0⟩
      (fun _ _ => [7]) 2 0 (Or.inl rfl)).2⟩

/-- C3 counterexample: the claim says a `reset` clears the `underrun` flag, but
`reset` leaves it set — at this concrete underrun state the flag survives. -/
theorem reset_keeps_underrun_counterexample :
    ¬ ((step 1 44100 4 8192 false ⟨false, true, some [], 0, 0⟩ Op.reset).underrun
        = false) := by
  simp [step, reset]

/-- C3 (amended): once set, the `underrun` flag survives every operation that is
not a `play` — callbacks (which output silence while it is set), `reset`, pause,
resume and the queries — and `play` clears it unconditionally, even when it
accepts zero bytes; moreover a callback that obtains fewer frames than requested
sets the flag. -/
theorem underrun_persistence (np sr ob cap : Nat) (est : Bool) (st : AoState) :
    (st.underrun = true → ∀ op : Op, (∀ d l f, op ≠ Op.play d l f) →
      (step np sr ob cap est st op).underrun = true) ∧
    (∀ d l f, (step np sr ob cap est st (Op.play d l f)).underrun = false) ∧
    (∀ (bufs : Planes) (n : Nat) (now : ℚ) (b : Fifo),
      st.paused = false → st.underrun = false → st.buffer = some b →
      (read_buffer b bufs n np).ret < n →
      (step np sr ob cap est st (Op.callback bufs n now)).underrun = true) := by
  refine ⟨?_, ?_, ?_⟩
  · intro hu op hop
    cases op with
    | callback bufs n now =>
      have hcond : (st.paused || st.underrun || st.buffer.isNone) = true := by
        simp [hu]
      cases est <;> simp [step, outputaudio, hcond, hu]
    | play d l f => exact absurd rfl (hop d l f)
    | reset => simpa [step, reset] using hu
    | pause => simpa [step, audio_pause] using hu
    | resume => simpa [step, audio_resume] using hu
    | querySpace => simpa [step] using hu
    | queryDelay now => simpa [step] using hu
  · intro d l f
    simp [step, play]
  · intro bufs n now b hp hu hb hret
    have hcond : (st.paused || st.underrun || st.buffer.isNone) = false := by
      simp [hp, hu, hb]
    cases est <;> simp [step, outputaudio, hcond, hp, hu, hb, hret]

/-- C3 witness: an underrun-flagged state keeps the flag across a callback, a
reset and a pause; a zero-length `play` clears it; and a callback popping from an
empty two-byte-short buffer sets it. -/
theorem underrun_persistence_witness :
    (step 1 44100 4 8192 true ⟨false, true, some [], 0, 0⟩
        (Op.callback (fun _ _ => [7]) 2 0)).underrun = true ∧
    (step 1 44100 4 8192 true ⟨false, true, some [], 0, 0⟩ Op.reset).underrun = true ∧
    (step 1 44100 4 8192 true ⟨false, true, some [], 0, 0⟩
        (Op.play [] 0 false)).underrun = false ∧
    (step 1 44100 4 8192 true ⟨false, false, some [], 0, 0⟩
        (Op.callback (fun _ _ => [7]) 2 0)).underrun = true :=
  ⟨(underrun_persistence 1 44100 4 8192 true ⟨false, true, some [], 0, 0⟩).1 rfl
      (Op.callback (fun _ _ => [7]) 2 0) (fun d l f h => Op.noConfusion h),
   (underrun_persistence 1 44100 4 8192 true ⟨false, true, some [], 0, 0⟩).1 rfl
      Op.reset (fun d l f h => Op.noConfusion h),
   (underrun_persistence 1 44100 4 8192 true ⟨false, true, some [], 0, 0⟩).2.1 [] 0 false,
   (underrun_persistence 1 44100 4 8192 true ⟨false, false, some [], 0, 0⟩).2.2
      (fun _ _ => [7]) 2 0 [] rfl rfl rfl (by decide)⟩

/-- Characterisation of the estimator update performed by `outputaudio`: the new
`callback_time` and `callback_interval` as functions of the pre-state. -/
lemma outputaudio_time (np sr : Nat) (est : Bool) (st : AoState) (bufs : Planes)
    (n : Nat) (now : ℚ) :
    ((outputaudio np sr est st bufs n now).1.callback_time =
      if est = true then
        (if -(2/1000 : ℚ) < st.callback_time + st.callback_interval - now ∧
            st.callback_time + st.callback_interval - now < (2/1000 : ℚ) then
          st.callback_time + st.callback_interval
        else now)
      else st.callback_time) ∧
    ((outputaudio np sr est st bufs n now).1.callback_interval =
      if est = true then (n : ℚ) / (sr : ℚ) else st.callback_interval) := by
  by_cases hc : (st.paused || st.underrun || st.buffer.isNone) = true <;>
    cases est <;> simp [outputaudio, hc]

/-- C9: with estimation enabled, a callback whose previously predicted fire time
is strictly within the 2 ms tolerance of `now` advances `callback_time` by the
nominal period; otherwise `callback_time` is re-anchored to `now`; in both cases
the nominal period becomes `nframes / samplerate`. -/
theorem callback_time_update (np sr : Nat) (st : AoState) (bufs : Planes) (n : Nat)
    (now : ℚ) :
    ((-(2/1000 : ℚ) < st.callback_time + st.callback_interval - now ∧
        st.callback_time + st.callback_interval - now < (2/1000 : ℚ)) →
      (outputaudio np sr true st bufs n now).1.callback_time =
        st.callback_time + st.callback_interval) ∧
    (¬ (-(2/1000 : ℚ) < st.callback_time + st.callback_interval - now ∧
        st.callback_time + st.callback_interval - now < (2/1000 : ℚ)) →
      (outputaudio np sr true st bufs n now).1.callback_time = now) ∧
    (outputaudio np sr true st bufs n now).1.callback_interval = (n : ℚ) / (sr : ℚ) := by
  obtain ⟨ht, hi⟩ := outputaudio_time np sr true st bufs n now
  refine ⟨?_, ?_, ?_⟩
  · intro h
    rw [ht, if_pos rfl, if_pos h]
  · intro h
    rw [ht, if_pos rfl, if_neg h]
  · rw [hi, if_pos rfl]

/-- C9 witness: an in-phase callback (prediction error 0) advances the predicted
time by the period; an out-of-phase one (error 1 s) re-anchors to `now`. -/
theorem callback_time_update_witness :
    (outputaudio 1 48000 true ⟨false, false, some [], 0, 0⟩
        (fun _ _ => [7]) 1 0).1.callback_time = (0 : ℚ) + 0 ∧
    (outputaudio 1 48000 true ⟨false, false, some [], 0, 0⟩
        (fun _ _ => [7]) 1 1).1.callback_time = 1 :=
  ⟨(callback_time_update 1 48000 ⟨false, false, some [], 0, 0⟩
      (fun _ _ => [7]) 1 0).1 (by norm_num),
   (callback_time_update 1 48000 ⟨false, false, some [], 0, 0⟩
      (fun _ _ => [7]) 1 1).2.1 (by norm_num)⟩

/-- Characterisation of `read_buffer` in the shortfall case: planes are pre-filled
with silence, the frame count is truncated to what the buffer holds, and that many
whole frames of bytes are popped. -/
lemma read_buffer_short_eq (buffer : Fifo) (bufs : Planes) (cnt N : Nat)
    (hshort : av_fifo_size buffer < cnt * floatSize * N) :
    read_buffer buffer bufs cnt N =
      ⟨(deinterleave ⟨silence bufs cnt N, N, 0, 0⟩
          (buffer.take (av_fifo_size buffer / floatSize / N * N * floatSize))).bufs,
       buffer.drop (av_fifo_size buffer / floatSize / N * N * floatSize),
       av_fifo_size buffer / floatSize / N⟩ := by
  simp only [read_buffer, av_fifo_generic_read]
  rw [if_pos hshort, if_pos hshort]

/-- Characterisation of `read_buffer` when the buffer holds enough bytes: the full
request of `cnt` frames is popped and deinterleaved. -/
lemma read_buffer_full_eq (buffer : Fifo) (bufs : Planes) (cnt N : Nat)
    (h : ¬ (av_fifo_size buffer < cnt * floatSize * N)) :
    read_buffer buffer bufs cnt N =
      ⟨(deinterleave ⟨bufs, N, 0, 0⟩ (buffer.take (cnt * N * floatSize))).bufs,
       buffer.drop (cnt * N * floatSize), cnt⟩ := by
  simp only [read_buffer, av_fifo_generic_read]
  rw [if_neg h, if_neg h]

/-- C2: a callback-side pop requesting `cnt` frames over `N` planes from a buffer
holding fewer than `cnt * N * sizeof(float)` bytes returns
`⌊occupied / (N * sizeof(float))⌋` frames, leaves every plane position from that
count up to `cnt - 1` zero, and the enclosing callback sets the underrun flag. -/
theorem read_buffer_shortfall (buffer : Fifo) (bufs : Planes) (cnt N : Nat)
    (hN : 0 < N) (hshort : av_fifo_size buffer < cnt * floatSize * N) :
    (read_buffer buffer bufs cnt N).ret = av_fifo_size buffer / (N * floatSize) ∧
    (∀ j p, j < N → (read_buffer buffer bufs cnt N).ret ≤ p → p < cnt →
      (read_buffer buffer bufs cnt N).bufs j p = zeroSample) ∧
    (∀ (sr : Nat) (est : Bool) (ct ci now : ℚ),
      (outputaudio N sr est ⟨false, false, some buffer, ct, ci⟩ bufs cnt now).1.underrun
        = true) := by
  have hdd : av_fifo_size buffer / floatSize / N = av_fifo_size buffer / (N * floatSize) := by
    rw [Nat.div_div_eq_div_mul, Nat.mul_comm floatSize N]
  have hret : (read_buffer buffer bufs cnt N).ret = av_fifo_size buffer / (N * floatSize) := by
    rw [read_buffer_short_eq buffer bufs cnt N hshort]
    exact hdd
  refine ⟨hret, ?_, ?_⟩
  · intro j p hj hp hpcnt
    rw [hret] at hp
    rw [read_buffer_short_eq buffer bufs cnt N hshort]
    dsimp only
    have hnb : av_fifo_size buffer / floatSize / N * N * floatSize ≤ buffer.length := by
      rw [hdd]
      calc av_fifo_size buffer / (N * floatSize) * N * floatSize
          = av_fifo_size buffer / (N * floatSize) * (N * floatSize) := by ring
        _ ≤ av_fifo_size buffer := Nat.div_mul_le_self _ _
        _ = buffer.length := rfl
    have hslen : (bytesToSamples
        (buffer.take (av_fifo_size buffer / floatSize / N * N * floatSize))).length =
        av_fifo_size buffer / (N * floatSize) * N := by
      rw [bytesToSamples_length, List.length_take, Nat.min_eq_left hnb, hdd]
      have hf : floatSize = 4 := rfl
      rw [hf]
      exact Nat.mul_div_cancel _ (by omega)
    rw [deinterleave_bufs_untouched N hN _ _ j p ?_]
    · simp only [silence]
      exact if_pos (And.intro hj hpcnt)
    · rintro ⟨k, hk, hkj, hkp⟩
      rw [hslen] at hk
      have h1 : k / N * N ≤ k := Nat.div_mul_le_self k N
      rw [← hkp] at h1
      have h2 : av_fifo_size buffer / (N * floatSize) * N ≤ p * N :=
        Nat.mul_le_mul_right N hp
      omega
  · intro sr est ct ci now
    have hlt : (read_buffer buffer bufs cnt N).ret < cnt := by
      rw [hret, Nat.div_lt_iff_lt_mul (Nat.mul_pos hN (by decide : 0 < floatSize))]
      calc av_fifo_size buffer < cnt * floatSize * N := hshort
        _ = cnt * (N * floatSize) := by ring
    cases est <;> simp [outputaudio, hlt]

/-- C2 witness: a five-byte buffer, two frames requested over one plane — one
frame returned, position 1 of plane 0 silent, and the callback flags underrun. -/
theorem read_buffer_shortfall_witness :
    (read_buffer [1, 2, 3, 4, 5] (fun _ _ => [7]) 2 1).ret = 5 / (1 * floatSize) ∧
    (read_buffer [1, 2, 3, 4, 5] (fun _ _ => [7]) 2 1).bufs 0 1 = zeroSample ∧
    (outputaudio 1 48000 true ⟨false, false, some [1, 2, 3, 4, 5], 0, 0⟩
        (fun _ _ => [7]) 2 0).1.underrun = true := by
  have h := read_buffer_shortfall [1, 2, 3, 4, 5] (fun _ _ => [7]) 2 1
    (by decide) (by decide)
  exact ⟨h.1, h.2.1 0 1 (by decide) (by rw [h.1]; decide) (by decide), h.2.2 48000 true 0 0 0⟩

/-- C8: pushing `len ≤ available_space()` bytes into the (empty) ring buffer and
then popping the same total byte count (`cnt` frames over `N` planes with
`cnt * N * sizeof(float) = len`) accepts all `len` bytes, returns all `cnt`
frames, empties the buffer, and reading the planes back in round-robin order
reconstructs exactly the pushed byte sequence. -/
theorem push_pop_roundtrip (cap len N cnt : Nat) (data : List Byte) (bufs : Planes)
    (hdata : len ≤ data.length) (hcap : len ≤ cap) (hN : 0 < N)
    (hframes : len = cnt * N * floatSize) :
    (write_buffer cap [] data len).2 = len ∧
    (read_buffer (write_buffer cap [] data len).1 bufs cnt N).ret = cnt ∧
    (read_buffer (write_buffer cap [] data len).1 bufs cnt N).buffer = [] ∧
    ((List.range (cnt * N)).map (fun k =>
        (read_buffer (write_buffer cap [] data len).1 bufs cnt N).bufs
          (k % N) (k / N))).flatten = data.take len := by
  have hw : write_buffer cap [] data len = (data.take len, len) := by
    rw [write_buffer_eq]
    have hmin : min len (cap - ([] : Fifo).length) = len := by
      simp only [List.length_nil]
      omega
    rw [hmin]
    simp
  have hlen1 : (data.take len).length = len := by
    rw [List.length_take]
    omega
  have hfull : read_buffer (data.take len) bufs cnt N =
      ⟨(deinterleave ⟨bufs, N, 0, 0⟩ (data.take len)).bufs, [], cnt⟩ := by
    have hnotshort : ¬ (av_fifo_size (data.take len) < cnt * floatSize * N) := by
      have he : cnt * floatSize * N = cnt * N * floatSize := by ring
      show ¬ ((data.take len).length < cnt * floatSize * N)
      rw [hlen1, he, ← hframes]
      omega
    rw [read_buffer_full_eq _ bufs cnt N hnotshort]
    have htake : (data.take len).take (cnt * N * floatSize) = data.take len :=
      List.take_of_length_le (by rw [hlen1, hframes])
    have hdrop : (data.take len).drop (cnt * N * floatSize) = [] :=
      List.drop_eq_nil_of_le (by rw [hlen1, hframes])
    rw [htake, hdrop]
  have hslen : (bytesToSamples (data.take len)).length = cnt * N := by
    rw [bytesToSamples_length, hlen1, hframes]
    have hf : floatSize = 4 := rfl
    rw [hf]
    exact Nat.mul_div_cancel _ (by omega)
  rw [hw]
  refine ⟨rfl, ?_, ?_, ?_⟩
  · rw [hfull]
  · rw [hfull]
  · have hmap : ∀ k ∈ List.range (cnt * N),
        (read_buffer (data.take len) bufs cnt N).bufs (k % N) (k / N) =
          (bytesToSamples (data.take len)).getD k zeroSample := by
      intro k hk
      rw [List.mem_range] at hk
      rw [hfull]
      exact deinterleave_bufs_getD N hN (data.take len) bufs k (by rw [hslen]; exact hk)
    rw [List.map_congr_left hmap, ← hslen, map_getD_range zeroSample]
    exact bytesToSamples_flatten (data.take len)
      ⟨cnt * N, by rw [hlen1, hframes]; simp only [floatSize]; ring⟩

/-- C8 witness: eight bytes pushed into an empty 16-byte buffer, popped as one
frame over two planes — all bytes come back in order. -/
theorem push_pop_roundtrip_witness :
    (write_buffer 16 [] [1, 2, 3, 4, 5, 6, 7, 8] 8).2 = 8 ∧
    (read_buffer (write_buffer 16 [] [1, 2, 3, 4, 5, 6, 7, 8] 8).1
        (fun _ _ => [9]) 1 2).ret = 1 ∧
    (read_buffer (write_buffer 16 [] [1, 2, 3, 4, 5, 6, 7, 8] 8).1
        (fun _ _ => [9]) 1 2).buffer = [] ∧
    ((List.range (1 * 2)).map (fun k =>
        (read_buffer (write_buffer 16 [] [1, 2, 3, 4, 5, 6, 7, 8] 8).1
          (fun _ _ => [9]) 1 2).bufs (k % 2) (k / 2))).flatten =
      List.take 8 [1, 2, 3, 4, 5, 6, 7, 8] :=
  push_pop_roundtrip 16 8 2 1 [1, 2, 3, 4, 5, 6, 7, 8] (fun _ _ => [9])
    (by decide) (by decide) (by decide) (by decide)

/-- C10: every pop performed by `read_buffer` removes an exact multiple of the
frame size `N * sizeof(float)` from the front of the buffer; when the request
exceeds the occupancy, the sub-frame remainder `occupied mod (N * sizeof(float))`
is left in the buffer rather than consumed. -/
theorem read_buffer_frame_aligned (buffer : Fifo) (bufs : Planes) (cnt N : Nat)
    (_hN : 0 < N) :
    (N * floatSize) ∣
      (av_fifo_size buffer - av_fifo_size (read_buffer buffer bufs cnt N).buffer) ∧
    (read_buffer buffer bufs cnt N).buffer =
      buffer.drop ((read_buffer buffer bufs cnt N).ret * N * floatSize) ∧
    (av_fifo_size buffer < cnt * floatSize * N →
      av_fifo_size (read_buffer buffer bufs cnt N).buffer =
        av_fifo_size buffer % (N * floatSize)) := by
  by_cases hshort : av_fifo_size buffer < cnt * floatSize * N
  · rw [read_buffer_short_eq buffer bufs cnt N hshort]
    dsimp only
    have hdd : av_fifo_size buffer / floatSize / N = av_fifo_size buffer / (N * floatSize) := by
      rw [Nat.div_div_eq_div_mul, Nat.mul_comm floatSize N]
    have hb : av_fifo_size buffer = buffer.length := rfl
    have hnb : av_fifo_size buffer / floatSize / N * N * floatSize =
        (N * floatSize) * (av_fifo_size buffer / (N * floatSize)) := by
      rw [hdd]
      ring
    have hle : (N * floatSize) * (av_fifo_size buffer / (N * floatSize)) ≤
        av_fifo_size buffer := by
      rw [Nat.mul_comm]
      exact Nat.div_mul_le_self _ _
    have hdm := Nat.div_add_mod (av_fifo_size buffer) (N * floatSize)
    refine ⟨?_, ?_, ?_⟩
    · rw [hnb] at *
      simp only [av_fifo_size, List.length_drop] at *
      refine ⟨av_fifo_size buffer / (N * floatSize), ?_⟩
      simp only [av_fifo_size] at *
      omega
    · rw [hdd]
    · intro _
      simp only [av_fifo_size, List.length_drop] at *
      rw [hnb] at *
      omega
  · rw [read_buffer_full_eq buffer bufs cnt N hshort]
    dsimp only
    have hle : cnt * N * floatSize ≤ av_fifo_size buffer := by
      have he : cnt * floatSize * N = cnt * N * floatSize := by ring
      omega
    refine ⟨?_, rfl, ?_⟩
    · simp only [av_fifo_size, List.length_drop] at *
      refine ⟨cnt, ?_⟩
      have he2 : cnt * N * floatSize = N * floatSize * cnt := by ring
      omega
    · intro h
      exact absurd h hshort

/-- C10 witness: five buffered bytes, one plane — the pop removes four bytes (one
frame) and leaves the one-byte sub-frame remainder `5 mod 4 = 1` in the buffer. -/
theorem read_buffer_frame_aligned_witness :
    (1 * floatSize) ∣
      (av_fifo_size [1, 2, 3, 4, 5] -
        av_fifo_size (read_buffer [1, 2, 3, 4, 5] (fun _ _ => [9]) 2 1).buffer) ∧
    (read_buffer [1, 2, 3, 4, 5] (fun _ _ => [9]) 2 1).buffer =
      List.drop ((read_buffer [1, 2, 3, 4, 5] (fun _ _ => [9]) 2 1).ret * 1 * floatSize)
        [1, 2, 3, 4, 5] ∧
    av_fifo_size (read_buffer [1, 2, 3, 4, 5] (fun _ _ => [9]) 2 1).buffer =
      av_fifo_size [1, 2, 3, 4, 5] % (1 * floatSize) := by
  have h := read_buffer_frame_aligned [1, 2, 3, 4, 5] (fun _ _ => [9]) 2 1 (by decide)
  exact ⟨h.1, h.2.1, h.2.2 (by decide)⟩
